import Mathlib

/-!
Verification of the `SingleLinkedList` container from `src/main.cpp`.

The container is a singly-linked list with a dummy sentinel head node.  We
embed it shallowly:

* a list state is the chain of real nodes (in iteration order, the sentinel
  excluded, each node carrying an allocation identity) together with the
  `size_` counter, exactly the two data members `head_.next_node` / `size_`;
* heap effects are made explicit through a state `St` holding the fresh-id
  allocator, the multiset of live (allocated, not yet deleted) node ids, and
  a copy budget: copying an element succeeds while the budget is positive and
  fails once it reaches zero.  This models both `operator new` failure and a
  throwing element copy constructor (the `ThrowOnCopy` element used by the
  repository's own tests): in either case `new Node(value, next)` completes
  no allocation and the failure propagates;
* iterators are `Option Nat`: the id of the node they reference, or `none`
  for the null pointer (the end position).
-/

namespace SingleLinkedListModel

/-- One list node: an allocation identity plus the stored element value
(`Node::value`; `next_node` is represented by adjacency in the chain list). -/
structure Node (α : Type) where
  id : Nat
  value : α
deriving DecidableEq, Repr

/-- State of one `SingleLinkedList` object: the chain hanging off the
sentinel (`head_.next_node …`, in iteration order) and the `size_` counter. -/
structure SingleLinkedList (α : Type) where
  nodes : List (Node α)
  size_ : Nat
deriving DecidableEq, Repr

/-- Ambient heap/failure state threaded through the operations: `nextId` is
the fresh allocation id, `live` the ids of nodes currently allocated and not
deleted, `budget` the number of element copies that still succeed before a
copy fails (models `ThrowOnCopy`'s countdown / allocation exhaustion). -/
structure St where
  nextId : Nat
  live : List Nat
  budget : Nat
deriving DecidableEq, Repr

variable {α : Type}

/-- Values of a node chain in iteration order. -/
def vals (ns : List (Node α)) : List α := ns.map Node.value

/-- Element sequence of a list in iteration order (what iterating from
`begin()` to `end()` dereferences). -/
def valuesOf (l : SingleLinkedList α) : List α := vals l.nodes

/-- Copying one element value: succeeds (producing an equal value) while the
budget is positive, fails at budget zero (the element's copy constructor
throws). -/
def copyVal (st : St) (v : α) : Option (α × St) :=
  match st.budget with
  | 0 => none
  | Nat.succ b => some (v, ⟨st.nextId, st.live, b⟩)

/-- `new Node(value, next)`: copy the value, then allocate a fresh node
holding it.  If the copy fails nothing stays allocated and the failure
propagates. -/
def newNode (st : St) (v : α) : Option (Node α × St) :=
  match copyVal st v with
  | none => none
  | some (v2, st2) =>
    some (⟨st2.nextId, v2⟩, ⟨st2.nextId + 1, st2.nextId :: st2.live, st2.budget⟩)

/-- `delete` of a chain of nodes in order (`Clear`'s loop, or a temporary
list's destructor): each node's id leaves the live set. -/
def freeAll (st : St) (ns : List (Node α)) : St :=
  ns.foldl (fun s n => ⟨s.nextId, s.live.erase n.id, s.budget⟩) st

/-- `GetSize()` returns the `size_` counter. -/
def GetSize (l : SingleLinkedList α) : Nat := l.size_

/-- `IsEmpty()` tests `head_.next_node == nullptr`. -/
def IsEmpty (l : SingleLinkedList α) : Bool := l.nodes.isEmpty

/-- `PushFront(value)`: `head_.next_node = new Node(value, head_.next_node);
size_++`.  The member assignments happen only after `new Node` completed, so
on failure the triple returns the unchanged list and state with the error
flag set. -/
def PushFront (l : SingleLinkedList α) (v : α) (st : St) :
    SingleLinkedList α × Bool × St :=
  match newNode st v with
  | none => (l, true, st)
  | some (n, st2) => (⟨n :: l.nodes, l.size_ + 1⟩, false, st2)

/-- `Clear()`: the loop deletes each node reachable from the sentinel,
decrementing `size_` once per deleted node, and leaves the sentinel. -/
def Clear (l : SingleLinkedList α) (st : St) : SingleLinkedList α × St :=
  (⟨[], l.size_ - l.nodes.length⟩, freeAll st l.nodes)

/-- Push every value of `vs`, front to back, onto `acc` with `PushFront`.
This is the loop body shared by the `initializer_list` constructor (which
walks the values back to front) and both loops of the copy constructor.  On
the first failure the loop stops with the error flag set: the list built so
far is `acc` as it stood, and nothing is cleaned up here. -/
def pushAllFront : List α → SingleLinkedList α → St →
    SingleLinkedList α × Bool × St
  | [], acc, st => (acc, false, st)
  | v :: rest, acc, st =>
    match PushFront acc v st with
    | (acc2, false, st2) => pushAllFront rest acc2 st2
    | (_, true, st2) => (acc, true, st2)

/-- The `std::initializer_list` constructor: `it = values.end();
do { it--; head_.next_node = new Node(*it, head_.next_node); size_++; }
while (it != values.begin());` — i.e. it front-inserts the values from the
last one back to the first.  On an EMPTY range the very first `it--` moves
the iterator before `begin()`, which is undefined behaviour: modelled as
`none`.  On a copy failure mid-loop the exception propagates out of the
constructor with no cleanup (there is no try/catch here and the destructor of
a never-completed object does not run), so the error flag is returned with
the state still holding every node allocated so far as live. -/
def initFromValues (values : List α) (st : St) :
    Option (SingleLinkedList α × Bool × St) :=
  match values with
  | [] => none
  | _ :: _ => some (pushAllFront values.reverse ⟨[], 0⟩ st)

/-- The copy constructor `SingleLinkedList(const SingleLinkedList &other)`:
inside a try block it builds a temporary by front-pushing `other`'s elements
in iteration order (so `tmp` holds them reversed), then front-pushes `tmp`'s
elements onto `this` (restoring the original order).  If either loop throws,
`tmp` is destroyed during unwinding, the catch clause runs `Clear()` on
`this` and rethrows.  On success `tmp` is destroyed at the end of the try
block.  The result triple is (`this`'s final state, error flag, heap
state). -/
def copyCtor (other : SingleLinkedList α) (st : St) :
    SingleLinkedList α × Bool × St :=
  match pushAllFront (valuesOf other) ⟨[], 0⟩ st with
  | (tmp, true, st1) => (⟨[], 0⟩, true, freeAll st1 tmp.nodes)
  | (tmp, false, st1) =>
    match pushAllFront (valuesOf tmp) ⟨[], 0⟩ st1 with
    | (built, true, st2) =>
      let st3 := freeAll st2 tmp.nodes
      let cleared := Clear built st3
      (cleared.1, true, cleared.2)
    | (built, false, st2) => (built, false, freeAll st2 tmp.nodes)

/-- `operator=`: construct `tmp(rhs)` by the copy constructor — if that
throws, the catch clause rethrows and `*this` was never touched — then
`swap(tmp)`, after which `tmp`'s destructor frees the receiver's old
chain. -/
def assign (dst rhs : SingleLinkedList α) (st : St) :
    SingleLinkedList α × Bool × St :=
  match copyCtor rhs st with
  | (_, true, st1) => (dst, true, st1)
  | (tmp, false, st1) => (tmp, false, freeAll st1 dst.nodes)

/-- `swap(other)`: `std::swap(head_.next_node, other.head_.next_node);
std::swap(size_, other.size_)` — the two head links and the two counters are
exchanged, nothing else; no heap state is taken or produced. -/
def swap (a b : SingleLinkedList α) :
    SingleLinkedList α × SingleLinkedList α :=
  (⟨b.nodes, b.size_⟩, ⟨a.nodes, a.size_⟩)

/-- Mutable `begin()`: `Iterator(head_.next_node)` — the first real node, or
the null iterator when the list is empty. -/
def begin (l : SingleLinkedList α) : Option Nat :=
  match l.nodes with
  | [] => none
  | n :: _ => some n.id

/-- `begin() const`: `ConstIterator(head_.next_node)`. -/
def beginC (l : SingleLinkedList α) : Option Nat :=
  match l.nodes with
  | [] => none
  | n :: _ => some n.id

/-- `cbegin()`: `ConstIterator(head_.next_node)`. -/
def cbegin (l : SingleLinkedList α) : Option Nat :=
  match l.nodes with
  | [] => none
  | n :: _ => some n.id

/-- The walk of the mutable `end()`: starting at the sentinel it increments
while the current node's `next_node` is non-null, then increments once more
onto the null link.  Recursing over the remaining chain: with no node left
the next link is null and the final increment yields the null iterator;
otherwise advance past the next node. -/
def endWalk : List (Node α) → Option Nat
  | [] => none
  | _ :: rest => endWalk rest

/-- Mutable `end()`: walks the sentinel chain to its terminus. -/
def endM (l : SingleLinkedList α) : Option Nat := endWalk l.nodes

/-- `end() const`: `ConstIterator(nullptr)` — the canonical null value
directly. -/
def endC (_ : SingleLinkedList α) : Option Nat := none

/-- `cend()`: `return this->end();` on a const receiver. -/
def cend (l : SingleLinkedList α) : Option Nat := endC l

/-- The element-comparison loop of `operator==`: walk `lhs` from `begin()`
to `end()`, dereferencing both iterators in lock-step; stop with `false` at
the first pair comparing unequal.  (The case of `lhs` longer than `rhs` would
dereference `rhs`'s end iterator — undefined behaviour, unreachable when the
size counters agree with the chains; the branch is given the value
`false`.) -/
def eqLoop [DecidableEq α] : List (Node α) → List (Node α) → Bool
  | [], _ => true
  | _ :: _, [] => false
  | a :: as, b :: bs => if a.value ≠ b.value then false else eqLoop as bs

/-- `operator==`: `false` straight away when the size counters differ,
otherwise the pairwise element loop. -/
def listEq [DecidableEq α] (lhs rhs : SingleLinkedList α) : Bool :=
  if lhs.size_ ≠ rhs.size_ then false else eqLoop lhs.nodes rhs.nodes

/-- `operator!=`: `!(lhs == rhs)`. -/
def listNe [DecidableEq α] (lhs rhs : SingleLinkedList α) : Bool :=
  !(listEq lhs rhs)

/-- `std::lexicographical_compare` over two value sequences: it returns
`true` when the first range ends first, `false` when the second does; at
each pair, `*first1 < *first2` decides `true`, `*first2 < *first1` decides
`false`, otherwise both advance. -/
def lexComp [LinearOrder α] : List α → List α → Bool
  | _, [] => false
  | [], _ :: _ => true
  | a :: as, b :: bs =>
    if a < b then true else if b < a then false else lexComp as bs

/-- `operator<`: `std::lexicographical_compare(lhs.begin(), lhs.end(),
rhs.begin(), rhs.end())`. -/
def listLt [LinearOrder α] (lhs rhs : SingleLinkedList α) : Bool :=
  lexComp (valuesOf lhs) (valuesOf rhs)

/-- `operator<=`: `lhs == rhs || lhs < rhs`. -/
def listLe [LinearOrder α] [DecidableEq α]
    (lhs rhs : SingleLinkedList α) : Bool :=
  listEq lhs rhs || listLt lhs rhs

/-- `operator>`: `!(lhs <= rhs)`. -/
def listGt [LinearOrder α] [DecidableEq α]
    (lhs rhs : SingleLinkedList α) : Bool :=
  !(listLe lhs rhs)

/-- `operator>=`: `lhs > rhs || lhs == rhs`. -/
def listGe [LinearOrder α] [DecidableEq α]
    (lhs rhs : SingleLinkedList α) : Bool :=
  listGt lhs rhs || listEq lhs rhs

/-- Representation invariant maintained by every public operation: the
`size_` counter equals the number of real nodes in the chain. -/
def Wf (l : SingleLinkedList α) : Prop := l.size_ = l.nodes.length

/-- Build a concrete `Int` list through the `initializer_list` constructor
with exactly enough copy budget (used to state the spec's literal ordering
examples). -/
def listOf (vs : List Int) : SingleLinkedList Int :=
  match initFromValues vs ⟨0, [], vs.length⟩ with
  | some (l, false, _) => l
  | _ => ⟨[], 0⟩

/-! ### Unfolding equations for the shared push loop -/

theorem pushAllFront_nil (acc : SingleLinkedList α) (st : St) :
    pushAllFront ([] : List α) acc st = (acc, false, st) := rfl

theorem pushAllFront_cons_zero (v : α) (rest : List α)
    (acc : SingleLinkedList α) (ni : Nat) (lv : List Nat) :
    pushAllFront (v :: rest) acc ⟨ni, lv, 0⟩ = (acc, true, ⟨ni, lv, 0⟩) := rfl

theorem pushAllFront_cons_succ (v : α) (rest : List α)
    (acc : SingleLinkedList α) (ni : Nat) (lv : List Nat) (b : Nat) :
    pushAllFront (v :: rest) acc ⟨ni, lv, b + 1⟩ =
      pushAllFront rest ⟨⟨ni, v⟩ :: acc.nodes, acc.size_ + 1⟩
        ⟨ni + 1, ni :: lv, b⟩ := rfl

/-- When the push loop reports success, the resulting chain carries the
pushed values reversed in front of the accumulator's values, and the size
counter grew by the number of values pushed. -/
theorem pushAllFront_ok (vs : List α) (acc : SingleLinkedList α) (st : St)
    (h : (pushAllFront vs acc st).2.1 = false) :
    valuesOf (pushAllFront vs acc st).1 =
      vs.reverse ++ valuesOf acc ∧
    (pushAllFront vs acc st).1.size_ = acc.size_ + vs.length := by
  induction vs generalizing acc st with
  | nil => simp [pushAllFront_nil]
  | cons v rest ih =>
    obtain ⟨ni, lv, bu⟩ := st
    cases bu with
    | zero => rw [pushAllFront_cons_zero] at h; exact absurd h (by simp)
    | succ b =>
      rw [pushAllFront_cons_succ] at h ⊢
      obtain ⟨h1, h2⟩ := ih _ _ h
      refine ⟨?_, ?_⟩
      · rw [h1]; simp [valuesOf, vals, List.append_assoc]
      · rw [h2]; simp; omega

/-- With budget at least the number of values, the push loop succeeds and
consumes exactly that much budget. -/
theorem pushAllFront_enough (vs : List α) (acc : SingleLinkedList α) (st : St)
    (hb : vs.length ≤ st.budget) :
    (pushAllFront vs acc st).2.1 = false ∧
    (pushAllFront vs acc st).2.2.budget = st.budget - vs.length := by
  induction vs generalizing acc st with
  | nil => simp [pushAllFront_nil]
  | cons v rest ih =>
    obtain ⟨ni, lv, bu⟩ := st
    cases bu with
    | zero => simp at hb
    | succ b =>
      rw [pushAllFront_cons_succ]
      have := ih (⟨⟨ni, v⟩ :: acc.nodes, acc.size_ + 1⟩ : SingleLinkedList α)
        ⟨ni + 1, ni :: lv, b⟩ (by simpa using Nat.lt_succ_iff.mp (Nat.lt_of_lt_of_le (Nat.lt_succ_of_le (Nat.le_refl _)) hb))
      refine ⟨this.1, ?_⟩
      rw [this.2]; simp

/-- The push loop keeps the size counter in step with the chain length, on
the success path and on the failure path alike. -/
theorem pushAllFront_wf (vs : List α) (acc : SingleLinkedList α) (st : St)
    (h : acc.size_ = acc.nodes.length) :
    (pushAllFront vs acc st).1.size_ =
      (pushAllFront vs acc st).1.nodes.length := by
  induction vs generalizing acc st with
  | nil => simpa [pushAllFront_nil] using h
  | cons v rest ih =>
    obtain ⟨ni, lv, bu⟩ := st
    cases bu with
    | zero => simpa [pushAllFront_cons_zero] using h
    | succ b =>
      rw [pushAllFront_cons_succ]
      exact ih _ _ (by simp [h])

/-- Every node of the loop's result was already in the accumulator or was
freshly allocated (id at least the incoming `nextId`), and `nextId` never
decreases. -/
theorem pushAllFront_ids (vs : List α) (acc : SingleLinkedList α) (st : St) :
    (∀ n ∈ (pushAllFront vs acc st).1.nodes,
        n ∈ acc.nodes ∨ st.nextId ≤ n.id) ∧
    st.nextId ≤ (pushAllFront vs acc st).2.2.nextId := by
  induction vs generalizing acc st with
  | nil =>
    rw [pushAllFront_nil]
    exact ⟨fun n hn => Or.inl hn, Nat.le_refl _⟩
  | cons v rest ih =>
    obtain ⟨ni, lv, bu⟩ := st
    cases bu with
    | zero =>
      rw [pushAllFront_cons_zero]
      exact ⟨fun n hn => Or.inl hn, Nat.le_refl _⟩
    | succ b =>
      rw [pushAllFront_cons_succ]
      obtain ⟨hmem, hni⟩ := ih (⟨⟨ni, v⟩ :: acc.nodes, acc.size_ + 1⟩ :
        SingleLinkedList α) ⟨ni + 1, ni :: lv, b⟩
      constructor
      · intro n hn
        rcases hmem n hn with hin | hge
        · rcases List.mem_cons.mp hin with he2 | hacc
          · right; simp [he2]
          · left; exact hacc
        · right; exact Nat.le_trans (Nat.le_succ ni) hge
      · exact Nat.le_trans (Nat.le_succ ni) hni

/-! ### Comparison helpers -/

/-- Over chains of equal length, the element loop of `operator==` answers
exactly whether the two value sequences are equal. -/
theorem eqLoop_eq_true_iff [DecidableEq α] (as bs : List (Node α))
    (h : as.length = bs.length) :
    eqLoop as bs = true ↔ vals as = vals bs := by
  induction as generalizing bs with
  | nil =>
    cases bs with
    | nil => simp [eqLoop, vals]
    | cons b bs => simp at h
  | cons a as ih =>
    cases bs with
    | nil => simp at h
    | cons b bs =>
      by_cases hv : a.value = b.value
      · have h1 : eqLoop (a :: as) (b :: bs) = eqLoop as bs := by
          simp [eqLoop, hv]
        rw [h1, ih bs (by simpa using h)]
        simp [vals, hv]
      · simp [eqLoop, hv, vals]

/-- The element loop is reflexive. -/
theorem eqLoop_refl [DecidableEq α] (as : List (Node α)) :
    eqLoop as as = true := by
  induction as with
  | nil => rfl
  | cons a as ih => simp [eqLoop, ih]

/-- `std::lexicographical_compare`'s loop decides exactly the lexicographic
strict order on the value sequences (first differing pair decides; a proper
prefix is smaller). -/
theorem lexComp_eq_true_iff [LinearOrder α] (as bs : List α) :
    lexComp as bs = true ↔ List.Lex (fun x y => x < y) as bs := by
  induction as generalizing bs with
  | nil =>
    cases bs with
    | nil =>
      simp only [lexComp]
      exact iff_of_false (by simp) (by intro h; cases h)
    | cons b bs =>
      simp only [lexComp]
      exact iff_of_true trivial List.Lex.nil
  | cons a as ih =>
    cases bs with
    | nil =>
      simp only [lexComp]
      exact iff_of_false (by simp) (by intro h; cases h)
    | cons b bs =>
      simp only [lexComp]
      rcases lt_trichotomy a b with hlt | heq | hgt
      · rw [if_pos hlt]
        exact iff_of_true rfl (List.Lex.rel hlt)
      · subst heq
        rw [if_neg (lt_irrefl a), if_neg (lt_irrefl a)]
        rw [ih bs]
        constructor
        · exact List.Lex.cons
        · intro h
          cases h with
          | cons h => exact h
          | rel h => exact absurd h (lt_irrefl a)
      · rw [if_neg (not_lt_of_gt hgt), if_pos hgt]
        constructor
        · intro h; exact absurd h (by simp)
        · intro h
          cases h with
          | cons h => exact absurd hgt (lt_irrefl a)
          | rel h => exact absurd hgt (not_lt_of_gt h)

/-- The mutable `end()`'s walk always lands on the null iterator. -/
theorem endWalk_eq_none (ns : List (Node α)) :
    endWalk ns = (none : Option Nat) := by
  induction ns with
  | nil => rfl
  | cons n rest ih => exact ih

/-! ### Claim theorems -/

/-- C1: if copy assignment `dst = src` fails because copying one of `src`'s
elements fails partway through (the copy construction of the temporary
reports an error), then `dst` is left completely unchanged — same size, same
element sequence, and the same nodes, so iterators into `dst` taken before
the assignment still reference the same elements — and the error is
propagated to the caller. -/
theorem assign_fail_leaves_dst_unchanged (dst src : SingleLinkedList α)
    (st : St) (h : (copyCtor src st).2.1 = true) :
    (assign dst src st).1 = dst ∧ (assign dst src st).2.1 = true := by
  rcases hc : copyCtor src st with ⟨tmp, e, st1⟩
  rw [hc] at h
  simp only at h
  subst h
  simp [assign, hc]

/-- Witness for C1: a one-element source whose single element copy fails
(budget zero); the destination keeps its node chain bit for bit. -/
theorem assign_fail_leaves_dst_unchanged_w :
    (copyCtor (⟨[⟨0, (7 : Int)⟩], 1⟩ : SingleLinkedList Int)
        ⟨6, [5, 0], 0⟩).2.1 = true ∧
    (assign (⟨[⟨5, (9 : Int)⟩], 1⟩ : SingleLinkedList Int)
        ⟨[⟨0, 7⟩], 1⟩ ⟨6, [5, 0], 0⟩).1 = ⟨[⟨5, 9⟩], 1⟩ :=
  ⟨rfl, (assign_fail_leaves_dst_unchanged ⟨[⟨5, 9⟩], 1⟩ ⟨[⟨0, 7⟩], 1⟩
    ⟨6, [5, 0], 0⟩ rfl).1⟩

/-- C3 counterexample: the claim asserts that construction from the EMPTY
ordered sequence succeeds with size 0, but the constructor's `do`-`while`
decrements the initializer-list iterator before `begin()` on an empty range
(undefined behaviour), so in the embedding the empty case does not produce a
list. -/
theorem initFromValues_empty_counterexample :
    initFromValues ([] : List Int) ⟨0, [], 5⟩ = none := rfl

/-- C3 (amended): for every NONEMPTY ordered sequence, construction with
enough copy budget succeeds and yields a list whose `GetSize()` is the
sequence length and whose iteration order is exactly the input order. -/
theorem initFromValues_nonempty_ok (vs : List α) (st : St)
    (hne : vs ≠ []) (hb : vs.length ≤ st.budget) :
    ∃ l st2, initFromValues vs st = some (l, false, st2) ∧
      GetSize l = vs.length ∧ valuesOf l = vs := by
  cases vs with
  | nil => exact absurd rfl hne
  | cons v rest =>
    have hr : ((v :: rest).reverse).length ≤ st.budget := by simpa using hb
    have he := (pushAllFront_enough ((v :: rest).reverse) ⟨[], 0⟩ st hr).1
    obtain ⟨h1, h2⟩ := pushAllFront_ok ((v :: rest).reverse) ⟨[], 0⟩ st he
    rcases hp : pushAllFront ((v :: rest).reverse) ⟨[], 0⟩ st with ⟨l, e, st2⟩
    rw [hp] at he h1 h2
    simp only at he h1 h2
    subst he
    refine ⟨l, st2, ?_, ?_, ?_⟩
    · simp only [initFromValues]
      rw [hp]
    · show l.size_ = (v :: rest).length
      rw [h2]; simp
    · rw [h1]; simp [valuesOf, vals]

/-- Witness for C3's amended theorem: the sequence `[1, 2, 3]` with budget 3
builds a size-3 list holding `[1, 2, 3]` in iteration order. -/
theorem initFromValues_nonempty_ok_w :
    ([1, 2, 3] : List Int) ≠ [] ∧
    (∃ l st2, initFromValues ([1, 2, 3] : List Int) ⟨0, [], 3⟩ =
        some (l, false, st2) ∧
      GetSize l = 3 ∧ valuesOf l = [1, 2, 3]) :=
  ⟨by simp, initFromValues_nonempty_ok [1, 2, 3] ⟨0, [], 3⟩ (by simp) (by simp)⟩

/-- C4 (code bug): constructing from the sequence `[10, 20]` with exactly one
successful element copy allocates the node for `20` (id 0), then fails while
copying `10`.  The constructor has no try/catch and the destructor of the
never-completed object does not run, so node 0 is still live when the failure
propagates — the already-allocated node is NOT released, contradicting the
claim and the specification. -/
theorem initFromValues_partial_failure_leaks :
    initFromValues ([10, 20] : List Int) ⟨0, [], 1⟩ =
      some (⟨[⟨0, 20⟩], 1⟩, true, ⟨1, [0], 0⟩) ∧
    (⟨1, [0], 0⟩ : St).live ≠ [] := ⟨rfl, by simp⟩

/-- C5: `PushFront` on success increments `GetSize()` by exactly one, makes
the first element a copy of `v` with the previous elements following it in
unchanged order (the old chain is the tail, node for node); on failure the
error propagates and the list and heap state are exactly as before the
call. -/
theorem pushFront_spec (l : SingleLinkedList α) (v : α) (st : St) :
    ((PushFront l v st).2.1 = false →
      (PushFront l v st).1.size_ = l.size_ + 1 ∧
      valuesOf (PushFront l v st).1 = v :: valuesOf l ∧
      (PushFront l v st).1.nodes.tail = l.nodes) ∧
    ((PushFront l v st).2.1 = true →
      (PushFront l v st).1 = l ∧ (PushFront l v st).2.2 = st) := by
  obtain ⟨ni, lv, bu⟩ := st
  cases bu with
  | zero => simp [PushFront, newNode, copyVal, valuesOf, vals]
  | succ b => simp [PushFront, newNode, copyVal, valuesOf, vals]

/-- Witness for C5: with budget one the push succeeds and the size counter
becomes 2; with budget zero the call fails and returns the list unchanged. -/
theorem pushFront_spec_w :
    (PushFront (⟨[⟨0, (5 : Int)⟩], 1⟩ : SingleLinkedList Int) 7
        ⟨1, [0], 1⟩).1.size_ = 2 ∧
    (PushFront (⟨[⟨0, (5 : Int)⟩], 1⟩ : SingleLinkedList Int) 7
        ⟨1, [0], 0⟩).1 = ⟨[⟨0, 5⟩], 1⟩ :=
  ⟨((pushFront_spec ⟨[⟨0, (5 : Int)⟩], 1⟩ 7 ⟨1, [0], 1⟩).1 rfl).1,
   ((pushFront_spec ⟨[⟨0, (5 : Int)⟩], 1⟩ 7 ⟨1, [0], 0⟩).2 rfl).1⟩

/-- C6: `A.swap(B)` exchanges exactly the head link and the size counter:
the two node chains move over identically (per-node identity preserved, no
allocation, destruction, move or copy — the operation takes no heap state at
all), the sizes are exchanged, and the iterator that was `A.begin()` before
the call equals `B.begin()` after the call. -/
theorem swap_exchanges_state (a b : SingleLinkedList α) :
    (swap a b).1.nodes = b.nodes ∧ (swap a b).2.nodes = a.nodes ∧
    (swap a b).1.size_ = b.size_ ∧ (swap a b).2.size_ = a.size_ ∧
    begin (swap a b).2 = begin a ∧ begin (swap a b).1 = begin b :=
  ⟨rfl, rfl, rfl, rfl, rfl, rfl⟩

/-- C9: the mutable `end()` — which walks the sentinel chain to its terminus
— yields the same iterator as the const `end()` and as `cend()`, which use
the null value directly; and on an empty list `begin()` equals `end()` in
the mutable and the read-only variants alike. -/
theorem end_variants_agree (l : SingleLinkedList α) :
    endM l = endC l ∧ cend l = endC l ∧
    (IsEmpty l = true →
      begin l = endM l ∧ beginC l = endC l ∧ cbegin l = cend l) := by
  refine ⟨endWalk_eq_none l.nodes, rfl, ?_⟩
  intro h
  have hn : l.nodes = [] := by
    rw [IsEmpty, List.isEmpty_iff] at h
    exact h
  refine ⟨?_, ?_, ?_⟩ <;>
    simp [begin, beginC, cbegin, endM, endC, cend, hn, endWalk]

/-- Witness for C9: the empty list, where `begin()` meets the walked
`end()`. -/
theorem end_variants_agree_w :
    IsEmpty (⟨[], 0⟩ : SingleLinkedList Int) = true ∧
    begin (⟨[], 0⟩ : SingleLinkedList Int) =
      endM (⟨[], 0⟩ : SingleLinkedList Int) :=
  ⟨rfl, ((end_variants_agree ⟨[], 0⟩).2.2 rfl).1⟩

/-- C2: copy construction from `src` either succeeds — producing an
independent list (every node a fresh allocation, disjoint from `src`'s
nodes) whose element sequence and size equal `src`'s — or, when an element
copy fails partway through, propagates the error with the list under
construction left in the default-constructed empty state (no real node, size
zero, no partially built chain observable). -/
theorem copyCtor_strong_safety (src : SingleLinkedList α) (st : St)
    (hids : ∀ n ∈ src.nodes, n.id < st.nextId) :
    ((copyCtor src st).2.1 = false →
      valuesOf (copyCtor src st).1 = valuesOf src ∧
      GetSize (copyCtor src st).1 = (valuesOf src).length ∧
      ∀ n ∈ (copyCtor src st).1.nodes, ∀ m ∈ src.nodes, n.id ≠ m.id) ∧
    ((copyCtor src st).2.1 = true →
      (copyCtor src st).1 = ⟨[], 0⟩) := by
  rcases hp1 : pushAllFront (valuesOf src) ⟨[], 0⟩ st with ⟨tmp, e1, st1⟩
  cases e1 with
  | true =>
    simp [copyCtor, hp1]
  | false =>
    have hid1 := pushAllFront_ids (valuesOf src) ⟨[], 0⟩ st
    rw [hp1] at hid1
    have h1 := pushAllFront_ok (valuesOf src) ⟨[], 0⟩ st (by rw [hp1])
    rw [hp1] at h1
    simp only at h1 hid1
    rcases hp2 : pushAllFront (valuesOf tmp) ⟨[], 0⟩ st1 with ⟨built, e2, st2⟩
    cases e2 with
    | true =>
      have hwfb := pushAllFront_wf (valuesOf tmp) ⟨[], 0⟩ st1 rfl
      rw [hp2] at hwfb
      simp only at hwfb
      simp only [copyCtor, hp1, hp2]
      refine ⟨fun h => by simp at h, fun _ => ?_⟩
      show (⟨[], built.size_ - built.nodes.length⟩ : SingleLinkedList α) =
        ⟨[], 0⟩
      rw [hwfb, Nat.sub_self]
    | false =>
      have hid2 := pushAllFront_ids (valuesOf tmp) ⟨[], 0⟩ st1
      rw [hp2] at hid2
      have h2 := pushAllFront_ok (valuesOf tmp) ⟨[], 0⟩ st1 (by rw [hp2])
      rw [hp2] at h2
      simp only at h2 hid2
      simp only [copyCtor, hp1, hp2]
      refine ⟨fun _ => ⟨?_, ?_, ?_⟩, fun h => by simp at h⟩
      · rw [h2.1, h1.1]
        simp [valuesOf, vals]
      · show built.size_ = (valuesOf src).length
        rw [h2.2]
        have : (valuesOf tmp).length = (valuesOf src).length := by
          rw [h1.1]; simp [valuesOf, vals]
        simpa using this
      · intro n hn m hm
        rcases hid2.1 n hn with hin | hge
        · simp at hin
        · have hm2 : m.id < st.nextId := hids m hm
          have : st.nextId ≤ st1.nextId := hid1.2
          omega

/-- Witness for C2: copying a one-element list with ample budget reproduces
its element sequence in an independent node. -/
theorem copyCtor_strong_safety_w :
    (∀ n ∈ (⟨[⟨0, (7 : Int)⟩], 1⟩ : SingleLinkedList Int).nodes,
      n.id < (⟨1, [0], 10⟩ : St).nextId) ∧
    valuesOf (copyCtor (⟨[⟨0, (7 : Int)⟩], 1⟩ : SingleLinkedList Int)
      ⟨1, [0], 10⟩).1 = [7] :=
  ⟨by decide,
   ((copyCtor_strong_safety ⟨[⟨0, 7⟩], 1⟩ ⟨1, [0], 10⟩ (by decide)).1 rfl).1⟩

/-- With copy budget at least twice the source's node count — the copy
constructor copies each element once into the temporary and once into the
receiver — the copy succeeds and reproduces the source's element sequence
and size. -/
theorem copyCtor_enough (src : SingleLinkedList α) (st : St)
    (hb : 2 * src.nodes.length ≤ st.budget) :
    (copyCtor src st).2.1 = false ∧
    valuesOf (copyCtor src st).1 = valuesOf src ∧
    (copyCtor src st).1.size_ = src.nodes.length := by
  have hlen : (valuesOf src).length = src.nodes.length := by
    simp [valuesOf, vals]
  have he1 := pushAllFront_enough (valuesOf src) ⟨[], 0⟩ st (by omega)
  rcases hp1 : pushAllFront (valuesOf src) ⟨[], 0⟩ st with ⟨tmp, e1, st1⟩
  rw [hp1] at he1
  simp only at he1
  obtain ⟨he1f, he1b⟩ := he1
  subst he1f
  have h1 := pushAllFront_ok (valuesOf src) ⟨[], 0⟩ st (by rw [hp1])
  rw [hp1] at h1
  simp only at h1
  have hlen2 : (valuesOf tmp).length = src.nodes.length := by
    rw [h1.1]; simp [valuesOf, vals]
  have he2 := pushAllFront_enough (valuesOf tmp) ⟨[], 0⟩ st1 (by omega)
  rcases hp2 : pushAllFront (valuesOf tmp) ⟨[], 0⟩ st1 with ⟨built, e2, st2⟩
  rw [hp2] at he2
  simp only at he2
  obtain ⟨he2f, _⟩ := he2
  subst he2f
  have h2 := pushAllFront_ok (valuesOf tmp) ⟨[], 0⟩ st1 (by rw [hp2])
  rw [hp2] at h2
  simp only at h2
  simp only [copyCtor, hp1, hp2]
  refine ⟨by trivial, ?_, ?_⟩
  · rw [h2.1, h1.1]
    simp [valuesOf, vals]
  · rw [h2.2]
    simpa using hlen2

/-- C10: self-assignment is value-safe.  Evaluating `l = l` (with enough
copy budget for the two copies the rebuild makes of each element) succeeds,
and afterwards the list has the same size and the same element sequence in
iteration order as before, even though the assignment rebuilt the chain
through a temporary copy. -/
theorem self_assign_preserves_value (l : SingleLinkedList α) (st : St)
    (hwf : Wf l) (hb : 2 * l.nodes.length ≤ st.budget) :
    (assign l l st).2.1 = false ∧
    valuesOf (assign l l st).1 = valuesOf l ∧
    GetSize (assign l l st).1 = GetSize l := by
  obtain ⟨he, hv, hs⟩ := copyCtor_enough l st hb
  rcases hc : copyCtor l st with ⟨tmp, e, st1⟩
  rw [hc] at he hv hs
  simp only at he hv hs
  subst he
  simp only [assign]
  rw [hc]
  exact ⟨rfl, hv, by show tmp.size_ = l.size_; rw [hs, hwf]⟩

/-- Witness for C10: self-assigning a two-element list with budget four
leaves its value sequence `[1, 2]` and size 2 intact. -/
theorem self_assign_preserves_value_w :
    Wf (⟨[⟨0, (1 : Int)⟩, ⟨1, 2⟩], 2⟩ : SingleLinkedList Int) ∧
    valuesOf (assign (⟨[⟨0, (1 : Int)⟩, ⟨1, 2⟩], 2⟩ : SingleLinkedList Int)
      ⟨[⟨0, 1⟩, ⟨1, 2⟩], 2⟩ ⟨2, [1, 0], 4⟩).1 = [1, 2] :=
  ⟨rfl, (self_assign_preserves_value ⟨[⟨0, 1⟩, ⟨1, 2⟩], 2⟩ ⟨2, [1, 0], 4⟩
    rfl (by decide)).2.1⟩

/-- C7: `operator==` answers `true` exactly when the two lists have equal
sizes and their elements compare equal pairwise in iteration order; equality
is reflexive; lists of different sizes compare unequal; and `operator!=` is
the negation of `operator==`. -/
theorem listEq_spec [DecidableEq α] (a b : SingleLinkedList α)
    (ha : Wf a) (hb : Wf b) :
    (listEq a b = true ↔ GetSize a = GetSize b ∧ valuesOf a = valuesOf b) ∧
    listEq a a = true ∧
    (GetSize a ≠ GetSize b → listEq a b = false) ∧
    listNe a b = !(listEq a b) := by
  refine ⟨?_, ?_, ?_, rfl⟩
  · constructor
    · intro h
      by_cases hsz : a.size_ = b.size_
      · have hlen : a.nodes.length = b.nodes.length := by
          rw [← ha, ← hb]; exact hsz
        rw [listEq, if_neg (not_not_intro hsz)] at h
        exact ⟨hsz, (eqLoop_eq_true_iff _ _ hlen).mp h⟩
      · rw [listEq, if_pos hsz] at h
        exact absurd h (by simp)
    · rintro ⟨hsz, hv⟩
      have hsz2 : a.size_ = b.size_ := hsz
      have hlen : a.nodes.length = b.nodes.length := by
        rw [← ha, ← hb]; exact hsz2
      rw [listEq, if_neg (not_not_intro hsz2)]
      exact (eqLoop_eq_true_iff _ _ hlen).mpr hv
  · rw [listEq, if_neg (not_not_intro rfl)]
    exact eqLoop_refl a.nodes
  · intro h
    have h2 : a.size_ ≠ b.size_ := h
    rw [listEq, if_pos h2]

/-- Witness for C7: two independently identified chains with the same values
in the same order compare equal. -/
theorem listEq_spec_w :
    Wf (⟨[⟨0, (1 : Int)⟩, ⟨1, 2⟩], 2⟩ : SingleLinkedList Int) ∧
    listEq (⟨[⟨0, (1 : Int)⟩, ⟨1, 2⟩], 2⟩ : SingleLinkedList Int)
      ⟨[⟨5, 1⟩, ⟨6, 2⟩], 2⟩ = true :=
  ⟨rfl, (listEq_spec ⟨[⟨0, 1⟩, ⟨1, 2⟩], 2⟩ ⟨[⟨5, 1⟩, ⟨6, 2⟩], 2⟩
    rfl rfl).1.mpr ⟨rfl, rfl⟩⟩

/-- C8: `operator<` holds exactly when the left element sequence is
lexicographically less than the right one (first differing pair decides, a
proper prefix is less — `List.Lex` with the strict per-element order);
`operator<=` is `== or <`, `operator>` is `not <=`, `operator>=` is
`> or ==`; in particular `[1,2,3] < [1,2,3,1]`, `[1,2,3] <= [1,2,3]`,
`[1,2,4] > [1,2,3]` and `[1,2,3] >= [1,2,3]` on lists built by the
sequence constructor. -/
theorem ordering_spec [LinearOrder α] [DecidableEq α]
    (a b : SingleLinkedList α) :
    (listLt a b = true ↔
      List.Lex (fun x y => x < y) (valuesOf a) (valuesOf b)) ∧
    listLe a b = (listEq a b || listLt a b) ∧
    listGt a b = !(listLe a b) ∧
    listGe a b = (listGt a b || listEq a b) ∧
    listLt (listOf [1, 2, 3]) (listOf [1, 2, 3, 1]) = true ∧
    listLe (listOf [1, 2, 3]) (listOf [1, 2, 3]) = true ∧
    listGt (listOf [1, 2, 4]) (listOf [1, 2, 3]) = true ∧
    listGe (listOf [1, 2, 3]) (listOf [1, 2, 3]) = true := by
  refine ⟨lexComp_eq_true_iff _ _, rfl, rfl, rfl, ?_, ?_, ?_, ?_⟩ <;> decide

end SingleLinkedListModel
